import Mathlib

/-!
Verification of the SochDB-backed LangGraph checkpointer
(`src/langgraph/checkpointer.py`) against its design specification.

The development shallowly embeds the checkpointer over a model of the
ordered key-value substrate (`sochdb.Database`): the store is an
association list of string keys kept in ascending lexicographic order,
`scan_prefix` is a filter over it, and an availability flag models
substrate connection/IO failure (`StoreUnavailable`).  Payload bytes are
lists of naturals; Python's `bytes.decode("utf-8", errors="replace")`
(used by `_ensure_jsonable`) is modelled by an explicit UTF-8 decoder
with U+FFFD replacement of maximal invalid subparts, and `str.encode()`
by the standard UTF-8 encoder.  `json.dumps`/`json.loads` of the
checkpoint envelope is modelled by tagging stored values with whether
they are a well-formed envelope (`Val.env`), opaque write-log bytes
(`Val.blob`), or non-decodable bytes (`Val.raw`).
-/

namespace SochCk

/-! ### Byte-wise lexicographic key order (the substrate's scan order) -/

/-- Lexicographic strict order on key characters, compared by code point
(UTF-8 byte order and code-point order agree). -/
def keyLt : List Char → List Char → Bool
  | _, [] => false
  | [], _ :: _ => true
  | a :: as, b :: bs =>
    if a.toNat < b.toNat then true
    else if b.toNat < a.toNat then false
    else keyLt as bs

/-- Lexicographic strict order on keys, as the substrate sorts them. -/
def strLtB (a b : String) : Bool := keyLt a.data b.data

/-- Boolean key-prefix test, as used by the substrate's `scan_prefix`. -/
def hasPre (p k : String) : Bool := p.data.isPrefixOf k.data

/-! ### UTF-8 with replacement (model of Python codec calls) -/

/-- Continuation-byte test for UTF-8 decoding. -/
def isContB (n : Nat) : Prop := 0x80 ≤ n ∧ n < 0xC0

/-- Valid range of the second byte of a three-byte sequence led by `b`
(excludes overlong encodings and surrogates, as CPython does). -/
def cont3ok (b n : Nat) : Prop :=
  (if b = 0xE0 then 0xA0 else 0x80) ≤ n ∧ n < (if b = 0xED then 0xA0 else 0xC0)

/-- Valid range of the second byte of a four-byte sequence led by `b`
(excludes overlong encodings and code points beyond U+10FFFF). -/
def cont4ok (b n : Nat) : Prop :=
  (if b = 0xF0 then 0x90 else 0x80) ≤ n ∧ n < (if b = 0xF4 then 0x90 else 0xC0)

instance (n : Nat) : Decidable (isContB n) := by unfold isContB; infer_instance
instance (b n : Nat) : Decidable (cont3ok b n) := by unfold cont3ok; infer_instance
instance (b n : Nat) : Decidable (cont4ok b n) := by unfold cont4ok; infer_instance

/-- Byte at offset `i`, with an out-of-range sentinel.  The sentinel is not a
valid continuation byte, which matches CPython: a truncated sequence and an
invalid continuation byte produce the same replacement behaviour. -/
def cByte (bs : List Nat) (i : Nat) : Nat := bs.getD i 0x100

/-- Decode one UTF-8 sequence starting at byte `b` with lookahead `bs`;
returns the code point (U+FFFD on a maximal invalid subpart) and how many
lookahead bytes were consumed. -/
def decodeOne (b : Nat) (bs : List Nat) : Nat × Nat :=
  if b < 0x80 then (b, 0)
  else if b < 0xC2 then (0xFFFD, 0)
  else if b < 0xE0 then
    if isContB (cByte bs 0) then ((b - 0xC0) * 64 + (cByte bs 0 - 0x80), 1) else (0xFFFD, 0)
  else if b < 0xF0 then
    if cont3ok b (cByte bs 0) then
      if isContB (cByte bs 1) then
        ((b - 0xE0) * 4096 + (cByte bs 0 - 0x80) * 64 + (cByte bs 1 - 0x80), 2)
      else (0xFFFD, 1)
    else (0xFFFD, 0)
  else if b < 0xF5 then
    if cont4ok b (cByte bs 0) then
      if isContB (cByte bs 1) then
        if isContB (cByte bs 2) then
          ((b - 0xF0) * 0x40000 + (cByte bs 0 - 0x80) * 4096 +
            (cByte bs 1 - 0x80) * 64 + (cByte bs 2 - 0x80), 3)
        else (0xFFFD, 2)
      else (0xFFFD, 1)
    else (0xFFFD, 0)
  else (0xFFFD, 0)

/-- Model of Python `bytes.decode("utf-8", errors="replace")`: the decoded
text as a list of code points. -/
def utf8DecodeReplace : List Nat → List Nat
  | [] => []
  | b :: bs => (decodeOne b bs).1 :: utf8DecodeReplace (bs.drop (decodeOne b bs).2)
termination_by l => l.length
decreasing_by simp [List.length_drop]; omega

/-- UTF-8 encoding of one code point. -/
def utf8EncodeChar (c : Nat) : List Nat :=
  if c < 0x80 then [c]
  else if c < 0x800 then [0xC0 + c / 64, 0x80 + c % 64]
  else if c < 0x10000 then [0xE0 + c / 4096, 0x80 + (c / 64) % 64, 0x80 + c % 64]
  else [0xF0 + c / 0x40000, 0x80 + (c / 4096) % 64, 0x80 + (c / 64) % 64, 0x80 + c % 64]

/-- Model of Python `str.encode()`: UTF-8 encoding of a list of code points. -/
def utf8Encode : List Nat → List Nat
  | [] => []
  | c :: cs => utf8EncodeChar c ++ utf8Encode cs

/-- A Unicode scalar value: a code point that can occur in a Python `str`
produced by decoding. -/
def ScalarValue (n : Nat) : Prop := n < 0xD800 ∨ (0xE000 ≤ n ∧ n < 0x110000)

instance (n : Nat) : Decidable (ScalarValue n) := by unfold ScalarValue; infer_instance

/-! ### Serializer output and `_ensure_jsonable` -/

/-- Output of the external serializer (`JsonPlusSerializer.dumps`): either
bytes or text (the code defends against both, cf. `put_writes`). -/
inductive SVal where
  | bytes (b : List Nat)
  | str (s : List Nat)
  deriving DecidableEq

/-- Model of `SochDBCheckpointer._ensure_jsonable`: bytes are decoded as
UTF-8 with replacement, any other value is returned unchanged. -/
def ensure_jsonable : SVal → List Nat
  | .bytes b => utf8DecodeReplace b
  | .str s => s

/-- Bytes actually written by `put_writes`: a str blob is UTF-8 encoded
(`blob.encode()`), bytes pass through. -/
def blobBytes : SVal → List Nat
  | .bytes b => b
  | .str s => utf8Encode s

/-! ### Stored values and the checkpoint envelope -/

/-- The JSON envelope written by `put`: `{"checkpoint": ..., "metadata":
..., "parent_config": ...}`, where the first two fields are the
`_ensure_jsonable`-converted serializer output (text, stored as code
points) and the third is the optional parent reference. -/
structure Env where
  checkpoint : List Nat
  metadata : List Nat
  parent_config : Option String
  deriving DecidableEq

/-- A value stored in the substrate, tagged by how `json.loads` sees it:
a well-formed checkpoint envelope, opaque write-log bytes (stored by
`put_writes`, never read back through `_get_data`), or malformed bytes on
which `json.loads` raises. -/
inductive Val where
  | env (e : Env)
  | blob (b : List Nat)
  | raw (b : List Nat)
  deriving DecidableEq

/-- Model of `json.loads(val.decode())` as called by `_get_data`: succeeds
exactly on a stored checkpoint envelope. -/
def decodeEnv : Val → Option Env
  | .env e => some e
  | .blob _ => none
  | .raw _ => none

/-! ### The ordered key-value substrate (`sochdb.Database`) -/

/-- The substrate's key order keeps stored pairs sorted; an association
list in ascending `strLtB` order models it. -/
abbrev Store := List (String × Val)

/-- Substrate failure: connection/IO errors (`StoreUnavailable`). -/
inductive SubErr where
  | storeUnavailable
  deriving DecidableEq

/-- Substrate state: the sorted store plus an availability flag; all
operations fail with `StoreUnavailable` when unavailable. -/
structure DB where
  store : Store
  avail : Bool
  deriving DecidableEq

/-- Point lookup in the association list. -/
def storeFind (s : Store) (k : String) : Option Val :=
  (s.find? (fun kv => kv.1 == k)).map (fun kv => kv.2)

/-- Ordered insert that overwrites an existing binding of the same key:
the substrate's `put` maintains the sorted key order. -/
def insertKV (k : String) (v : Val) : Store → Store
  | [] => [(k, v)]
  | (k2, v2) :: rest =>
    if strLtB k k2 then (k, v) :: (k2, v2) :: rest
    else if k == k2 then (k, v) :: rest
    else (k2, v2) :: insertKV k v rest

/-- Substrate `get(key)`. -/
def dbGet (d : DB) (k : String) : Except SubErr (Option Val) :=
  if d.avail then .ok (storeFind d.store k) else .error .storeUnavailable

/-- Substrate `put(key, value)`. -/
def dbPut (d : DB) (k : String) (v : Val) : Except SubErr DB :=
  if d.avail then .ok ⟨insertKV k v d.store, d.avail⟩ else .error .storeUnavailable

/-- Substrate `delete(key)`; deleting an absent key is a no-op. -/
def dbDelete (d : DB) (k : String) : Except SubErr DB :=
  if d.avail then .ok ⟨d.store.filter (fun kv => !(kv.1 == k)), d.avail⟩
  else .error .storeUnavailable

/-- Substrate `scan_prefix(p)`: all pairs whose key starts with `p`, in
ascending lexicographic key order (the store's own order). -/
def dbScanPre (d : DB) (p : String) : Except SubErr Store :=
  if d.avail then .ok (d.store.filter (fun kv => hasPre p kv.1)) else .error .storeUnavailable

/-- Invariant of reachable substrate states: keys strictly ascending. -/
def StoreOrd (s : Store) : Prop := s.Pairwise (fun a b => strLtB a.1 b.1 = true)

instance (s : Store) : Decidable (StoreOrd s) := by unfold StoreOrd; infer_instance

/-! ### Key scheme -/

/-- Key of one checkpoint: `checkpoints/{thread_id}/{checkpoint_id}`. -/
def checkpointKeyOf (t c : String) : String := "checkpoints/" ++ t ++ "/" ++ c

/-- Scan start of a thread's checkpoints: `checkpoints/{thread_id}/`. -/
def checkpointPre (t : String) : String := "checkpoints/" ++ t ++ "/"

/-- Key of one task's write batch: `writes/{thread_id}/{task_id}`. -/
def writeKeyOf (t task : String) : String := "writes/" ++ t ++ "/" ++ task

/-- Scan start of a thread's writes: `writes/{thread_id}/`. -/
def writePre (t : String) : String := "writes/" ++ t ++ "/"

/-! ### Checkpointer operations (`SochDBCheckpointer`) -/

/-- Model of `_get_data`: `try: val = db.get(key); if val: return
json.loads(...)` with a bare `except Exception: pass` — substrate failures
and decode failures alike yield `None`. -/
def getData (d : DB) (k : String) : Option Env :=
  match dbGet d k with
  | .error _ => none
  | .ok none => none
  | .ok (some v) => decodeEnv v

/-- The forward scan of `get_tuple`'s latest-checkpoint branch: the last
key visited under the thread's checkpoint prefix; the surrounding
`try/except` turns a substrate failure into no key found. -/
def latestKeyScan (d : DB) (t : String) : Option String :=
  match dbScanPre d (checkpointPre t) with
  | .error _ => none
  | .ok kvs => (kvs.map (fun kv => kv.1)).getLast?

/-- Model of `get_tuple`: with a (truthy) checkpoint id an exact point
lookup, otherwise the forward-scan latest lookup.  Returns the decoded
envelope; the caller-visible `CheckpointTuple` is built from its fields
by the external serializer. -/
def get_tuple (d : DB) (t : String) (cid : Option String) : Option Env :=
  if cid.getD "" = "" then
    match latestKeyScan d t with
    | none => none
    | some k => getData d k
  else getData d (checkpointKeyOf t (cid.getD ""))

/-- Collection pass of `list`: scan the thread's checkpoint prefix in
forward order and decode each entry (`_get_data` per key, skipping
entries that yield no data); a substrate failure mid-scan is swallowed by
the surrounding `try/except`. -/
def collectCk (d : DB) (t : String) : List Env :=
  match dbScanPre d (checkpointPre t) with
  | .error _ => []
  | .ok kvs => kvs.filterMap (fun kv => getData d kv.1)

/-- Model of `list`: the collected sequence reversed (newest first), then
truncated by `limit` — but only when `limit` is truthy, so `limit = 0`
behaves like no limit (`if limit and count >= limit: break`). -/
def listCk (d : DB) (t : String) (limit : Option Nat) : List Env :=
  match limit with
  | none => (collectCk d t).reverse
  | some k => if k = 0 then (collectCk d t).reverse else (collectCk d t).reverse.take k

/-- The envelope stored by `put` for given serializer outputs and parent
reference. -/
def envOf (ckpt meta : SVal) (parent : Option String) : Env :=
  ⟨ensure_jsonable ckpt, ensure_jsonable meta, parent⟩

/-- Model of `put`: writes the envelope at the checkpoint key and returns
the `{thread_id, checkpoint_id}` confirmation; substrate failures
propagate (no `try/except` in the source). -/
def put (d : DB) (t cid : String) (ckpt meta : SVal) (parent : Option String) :
    Except SubErr (DB × String × String) :=
  match dbPut d (checkpointKeyOf t cid) (.env (envOf ckpt meta parent)) with
  | .error e => .error e
  | .ok d2 => .ok (d2, t, cid)

/-- Model of `put_writes`: encodes the `{task_path, writes}` payload (the
serializer output, byte-normalised) and stores it at the write key;
substrate failures propagate. -/
def put_writes (d : DB) (t taskId : String) (payload : SVal) : Except SubErr DB :=
  dbPut d (writeKeyOf t taskId) (.blob (blobBytes payload))

/-- Delete every key in the list, one `delete` call at a time. -/
def deleteKeys (d : DB) : List String → Except SubErr DB
  | [] => .ok d
  | k :: ks =>
    match dbDelete d k with
    | .error e => .error e
    | .ok d2 => deleteKeys d2 ks

/-- Model of `delete_thread`: scan and delete all keys under the thread's
checkpoint prefix, then all keys under its write prefix; substrate
failures propagate. -/
def delete_thread (d : DB) (t : String) : Except SubErr DB :=
  match dbScanPre d (checkpointPre t) with
  | .error e => .error e
  | .ok kvs =>
    match deleteKeys d (kvs.map (fun kv => kv.1)) with
    | .error e => .error e
    | .ok d2 =>
      match dbScanPre d2 (writePre t) with
      | .error e => .error e
      | .ok kvs2 => deleteKeys d2 (kvs2.map (fun kv => kv.1))

/-- One `put` request of a checkpoint sequence: checkpoint id, the two
serializer outputs, and the parent reference. -/
structure PutReq where
  cid : String
  ckpt : SVal
  meta : SVal
  parent : Option String
  deriving DecidableEq

/-- Apply a sequence of `put` calls for one thread, left to right. -/
def applyPuts (d : DB) (t : String) : List PutReq → DB
  | [] => d
  | r :: rs =>
    match put d t r.cid r.ckpt r.meta r.parent with
    | .ok x => applyPuts x.1 t rs
    | .error _ => applyPuts d t rs

/-- Key written by one put request. -/
def reqKey (t : String) (r : PutReq) : String := checkpointKeyOf t r.cid

/-- Value written by one put request. -/
def reqVal (r : PutReq) : Val := .env (envOf r.ckpt r.meta r.parent)

/-- The substrate inserts produced by a put sequence. -/
def insFold (t : String) (rs : List PutReq) (s : Store) : Store :=
  rs.foldl (fun acc r => insertKV (reqKey t r) (reqVal r) acc) s

/-! ### Facts about the key order -/

theorem strExt {a b : String} (h : a.data = b.data) : a = b := by
  cases a; cases b; simp_all

theorem keyLt_irrefl (l : List Char) : keyLt l l = false := by
  induction l with
  | nil => rfl
  | cons a as ih => simp [keyLt, ih]

theorem keyLt_append (p a b : List Char) : keyLt (p ++ a) (p ++ b) = keyLt a b := by
  induction p with
  | nil => rfl
  | cons c cs ih => simp [keyLt, ih]

theorem keyLt_total (a b : List Char) (h : keyLt a b = false) (h2 : a ≠ b) :
    keyLt b a = true := by
  induction a generalizing b with
  | nil => cases b with
    | nil => exact absurd rfl h2
    | cons x xs => simp [keyLt] at h
  | cons x xs ih =>
    cases b with
    | nil => simp [keyLt]
    | cons y ys =>
      simp only [keyLt] at h ⊢
      by_cases hxy : x.toNat < y.toNat
      · simp [hxy] at h
      · by_cases hyx : y.toNat < x.toNat
        · rw [if_pos hyx]
        · rw [if_neg hxy, if_neg hyx] at h
          rw [if_neg hyx, if_neg hxy]
          have hnat : x.toNat = y.toNat := by omega
          have hx : x = y := Char.ext (UInt32.toNat.inj hnat)
          subst hx
          exact ih ys h (by intro hh; exact h2 (by rw [hh]))

theorem keyLt_trans (a b c : List Char) (h1 : keyLt a b = true) (h2 : keyLt b c = true) :
    keyLt a c = true := by
  induction a generalizing b c with
  | nil =>
    cases c with
    | nil => cases b <;> simp [keyLt] at h1 h2
    | cons z zs => simp [keyLt]
  | cons x xs ih =>
    cases b with
    | nil => simp [keyLt] at h1
    | cons y ys =>
      cases c with
      | nil => simp [keyLt] at h2
      | cons z zs =>
        simp only [keyLt] at h1 h2 ⊢
        by_cases hxy : x.toNat < y.toNat <;> by_cases hyz : y.toNat < z.toNat
        · rw [if_pos (by omega)]
        · rw [if_neg hyz] at h2
          by_cases hzy : z.toNat < y.toNat
          · rw [if_pos hzy] at h2; exact absurd h2 (by simp)
          · rw [if_pos (by omega)]
        · rw [if_neg hxy] at h1
          by_cases hyx : y.toNat < x.toNat
          · rw [if_pos hyx] at h1; exact absurd h1 (by simp)
          · rw [if_pos (by omega)]
        · rw [if_neg hxy] at h1
          rw [if_neg hyz] at h2
          by_cases hyx : y.toNat < x.toNat
          · rw [if_pos hyx] at h1; exact absurd h1 (by simp)
          · by_cases hzy : z.toNat < y.toNat
            · rw [if_pos hzy] at h2; exact absurd h2 (by simp)
            · rw [if_neg hyx] at h1
              rw [if_neg hzy] at h2
              rw [if_neg (by omega), if_neg (by omega)]
              exact ih ys zs h1 h2

theorem strLtB_irrefl (a : String) : strLtB a a = false := keyLt_irrefl a.data

theorem strLtB_trans {a b c : String} (h1 : strLtB a b = true) (h2 : strLtB b c = true) :
    strLtB a c = true := keyLt_trans a.data b.data c.data h1 h2

theorem strLtB_total {a b : String} (h : strLtB a b = false) (h2 : a ≠ b) :
    strLtB b a = true :=
  keyLt_total a.data b.data h (fun hd => h2 (strExt hd))

theorem strLtB_ne {a b : String} (h : strLtB a b = true) : a ≠ b := by
  intro he
  subst he
  rw [strLtB_irrefl] at h
  exact absurd h (by simp)

theorem strLtB_append (p a b : String) : strLtB (p ++ a) (p ++ b) = strLtB a b := by
  unfold strLtB
  rw [String.data_append, String.data_append, keyLt_append]

/-! ### Facts about the prefix test -/

theorem hasPre_append (p s : String) : hasPre p (p ++ s) = true := by
  unfold hasPre
  rw [String.data_append, List.isPrefixOf_iff_prefix]
  exact List.prefix_append p.data s.data

theorem hasPre_iff (p k : String) : hasPre p k = true ↔ ∃ s, k = p ++ s := by
  constructor
  · intro h
    unfold hasPre at h
    rw [List.isPrefixOf_iff_prefix] at h
    obtain ⟨tl, htl⟩ := h
    refine ⟨⟨tl⟩, strExt ?_⟩
    rw [String.data_append]
    exact htl.symm
  · rintro ⟨s, rfl⟩
    exact hasPre_append p s

theorem checkpointKeyOf_eq (t c : String) : checkpointKeyOf t c = checkpointPre t ++ c := rfl

theorem writeKeyOf_eq (t task : String) : writeKeyOf t task = writePre t ++ task := rfl

theorem hasPre_checkpointKey (t c : String) :
    hasPre (checkpointPre t) (checkpointKeyOf t c) = true := hasPre_append _ c

theorem checkpointKeyOf_inj {t c1 c2 : String}
    (h : checkpointKeyOf t c1 = checkpointKeyOf t c2) : c1 = c2 := by
  rw [checkpointKeyOf_eq, checkpointKeyOf_eq] at h
  have hd : (checkpointPre t).data ++ c1.data = (checkpointPre t).data ++ c2.data := by
    rw [← String.data_append, ← String.data_append, h]
  exact strExt (List.append_cancel_left hd)

theorem strLtB_checkpointKey (t c1 c2 : String) :
    strLtB (checkpointKeyOf t c1) (checkpointKeyOf t c2) = strLtB c1 c2 := by
  rw [checkpointKeyOf_eq, checkpointKeyOf_eq, strLtB_append]

/-! ### Store lemmas -/

theorem storeFind_cons_self (k : String) (v : Val) (l : Store) :
    storeFind ((k, v) :: l) k = some v := by
  simp [storeFind, List.find?]

theorem storeFind_cons_ne {k2 k : String} (v2 : Val) (l : Store) (h : k2 ≠ k) :
    storeFind ((k2, v2) :: l) k = storeFind l k := by
  have hb : (k2 == k) = false := by
    simp only [beq_eq_false_iff_ne, ne_eq]
    exact h
  simp [storeFind, List.find?, hb]

theorem insertKV_find_self (k : String) (v : Val) (s : Store) :
    storeFind (insertKV k v s) k = some v := by
  induction s with
  | nil => exact storeFind_cons_self k v []
  | cons kv rest ih =>
    obtain ⟨k2, v2⟩ := kv
    simp only [insertKV]
    by_cases hlt : strLtB k k2 = true
    · rw [if_pos hlt]
      exact storeFind_cons_self k v _
    · rw [if_neg hlt]
      by_cases he : (k == k2) = true
      · rw [if_pos he]
        exact storeFind_cons_self k v rest
      · rw [if_neg he]
        rw [storeFind_cons_ne v2 _ (fun hh => he (by simp [hh]))]
        exact ih

theorem insertKV_find_ne (k : String) (v : Val) (s : Store) (k' : String) (h : k' ≠ k) :
    storeFind (insertKV k v s) k' = storeFind s k' := by
  induction s with
  | nil =>
    have hb : (k == k') = false := by
      simp only [beq_eq_false_iff_ne, ne_eq]
      exact fun hh => h hh.symm
    simp [insertKV, storeFind, List.find?, hb]
  | cons kv rest ih =>
    obtain ⟨k2, v2⟩ := kv
    simp only [insertKV]
    by_cases hlt : strLtB k k2 = true
    · rw [if_pos hlt]
      exact storeFind_cons_ne v _ (fun hh => h hh.symm)
    · rw [if_neg hlt]
      by_cases he : (k == k2) = true
      · rw [if_pos he]
        have hk2 : k = k2 := by simpa using he
        subst hk2
        rw [storeFind_cons_ne v _ (fun hh => h hh.symm),
          storeFind_cons_ne v2 _ (fun hh => h hh.symm)]
      · rw [if_neg he]
        by_cases h2 : k2 = k'
        · subst h2
          rw [storeFind_cons_self, storeFind_cons_self]
        · rw [storeFind_cons_ne _ _ h2, storeFind_cons_ne _ _ h2]
          exact ih

theorem insertKV_mem {s : Store} (hs : StoreOrd s) (k : String) (v : Val)
    (x : String × Val) :
    x ∈ insertKV k v s ↔ x = (k, v) ∨ (x ∈ s ∧ x.1 ≠ k) := by
  induction s with
  | nil => simp [insertKV]
  | cons kv rest ih =>
    obtain ⟨k2, v2⟩ := kv
    have hhead : ∀ y ∈ rest, strLtB k2 y.1 = true := (List.pairwise_cons.mp hs).1
    have hrest : StoreOrd rest := (List.pairwise_cons.mp hs).2
    simp only [insertKV]
    by_cases hlt : strLtB k k2 = true
    · rw [if_pos hlt]
      constructor
      · intro hx
        rcases List.mem_cons.mp hx with hx1 | hx2
        · exact Or.inl hx1
        · refine Or.inr ⟨hx2, ?_⟩
          rcases List.mem_cons.mp hx2 with hx3 | hx4
          · rw [hx3]
            exact fun hh => strLtB_ne hlt hh.symm
          · intro hh
            have := hhead x hx4
            rw [hh] at this
            exact strLtB_ne (strLtB_trans hlt this) rfl
      · rintro (hx | ⟨hx, _⟩)
        · exact List.mem_cons.mpr (Or.inl hx)
        · exact List.mem_cons.mpr (Or.inr hx)
    · rw [if_neg hlt]
      by_cases he : (k == k2) = true
      · have hk2 : k = k2 := by simpa using he
        subst hk2
        rw [if_pos he]
        constructor
        · intro hx
          rcases List.mem_cons.mp hx with hx1 | hx2
          · exact Or.inl hx1
          · refine Or.inr ⟨List.mem_cons.mpr (Or.inr hx2), ?_⟩
            intro hh
            have := hhead x hx2
            rw [hh] at this
            exact strLtB_ne this rfl
        · rintro (hx | ⟨hx, hxk⟩)
          · exact List.mem_cons.mpr (Or.inl hx)
          · rcases List.mem_cons.mp hx with hx1 | hx2
            · exact absurd (by rw [hx1]) hxk
            · exact List.mem_cons.mpr (Or.inr hx2)
      · rw [if_neg he]
        have hk2ne : k ≠ k2 := fun hh => he (by simp [hh])
        constructor
        · intro hx
          rcases List.mem_cons.mp hx with hx1 | hx2
          · exact Or.inr ⟨List.mem_cons.mpr (Or.inl hx1), by rw [hx1]; exact fun hh => hk2ne hh.symm⟩
          · rcases (ih hrest).mp hx2 with hx3 | ⟨hx4, hx5⟩
            · exact Or.inl hx3
            · exact Or.inr ⟨List.mem_cons.mpr (Or.inr hx4), hx5⟩
        · rintro (hx | ⟨hx, hxk⟩)
          · exact List.mem_cons.mpr (Or.inr ((ih hrest).mpr (Or.inl hx)))
          · rcases List.mem_cons.mp hx with hx1 | hx2
            · exact List.mem_cons.mpr (Or.inl hx1)
            · exact List.mem_cons.mpr (Or.inr ((ih hrest).mpr (Or.inr ⟨hx2, hxk⟩)))

theorem insertKV_front {s : Store} (k : String) (v : Val)
    (h : ∀ x ∈ s, strLtB k x.1 = true) : insertKV k v s = (k, v) :: s := by
  cases s with
  | nil => rfl
  | cons kv rest =>
    obtain ⟨k2, v2⟩ := kv
    simp only [insertKV]
    rw [if_pos (h (k2, v2) (List.mem_cons_self _ _))]

theorem insertKV_sorted {s : Store} (hs : StoreOrd s) (k : String) (v : Val) :
    StoreOrd (insertKV k v s) := by
  induction s with
  | nil => simp [insertKV, StoreOrd]
  | cons kv rest ih =>
    obtain ⟨k2, v2⟩ := kv
    have hhead : ∀ y ∈ rest, strLtB k2 y.1 = true := (List.pairwise_cons.mp hs).1
    have hrest : StoreOrd rest := (List.pairwise_cons.mp hs).2
    simp only [insertKV]
    by_cases hlt : strLtB k k2 = true
    · rw [if_pos hlt]
      refine List.pairwise_cons.mpr ⟨?_, hs⟩
      intro y hy
      rcases List.mem_cons.mp hy with hy1 | hy2
      · rw [hy1]
        exact hlt
      · exact strLtB_trans hlt (hhead y hy2)
    · rw [if_neg hlt]
      by_cases he : (k == k2) = true
      · have hk2 : k = k2 := by simpa using he
        subst hk2
        rw [if_pos he]
        exact List.pairwise_cons.mpr ⟨hhead, hrest⟩
      · rw [if_neg he]
        have hk2ne : k ≠ k2 := fun hh => he (by simp [hh])
        have hk2lt : strLtB k2 k = true :=
          strLtB_total (by revert hlt; cases strLtB k k2 <;> simp) (fun hh => hk2ne hh)
        refine List.pairwise_cons.mpr ⟨?_, ih hrest⟩
        intro y hy
        rcases (insertKV_mem hrest k v y).mp hy with hy1 | ⟨hy2, _⟩
        · rw [hy1]
          exact hk2lt
        · exact hhead y hy2

theorem sorted_filter {s : Store} (hs : StoreOrd s) (P : String × Val → Bool) :
    StoreOrd (s.filter P) :=
  List.Pairwise.sublist (List.filter_sublist s) hs

theorem sorted_find_mem {l : Store} (hs : StoreOrd l) {k : String} {v : Val}
    (hmem : (k, v) ∈ l) : storeFind l k = some v := by
  induction l with
  | nil => cases hmem
  | cons kv rest ih =>
    obtain ⟨k2, v2⟩ := kv
    have hhead : ∀ y ∈ rest, strLtB k2 y.1 = true := (List.pairwise_cons.mp hs).1
    have hrest : StoreOrd rest := (List.pairwise_cons.mp hs).2
    by_cases h2 : k2 = k
    · subst h2
      rw [storeFind_cons_self]
      rcases List.mem_cons.mp hmem with h1 | h1
      · rw [(Prod.mk.injEq _ _ _ _).mp h1.symm |>.2]
      · have := hhead (k2, v) h1
        exact absurd rfl (strLtB_ne this)
    · rw [storeFind_cons_ne _ _ h2]
      rcases List.mem_cons.mp hmem with h1 | h1
      · exact absurd ((Prod.mk.injEq _ _ _ _).mp h1.symm).1 (fun hh => h2 hh)
      · exact ih hrest h1

theorem sorted_getLast_max {l : Store} (hs : StoreOrd l) {k : String} {v : Val}
    (hmem : (k, v) ∈ l) (hmax : ∀ x ∈ l, strLtB k x.1 = false) :
    l.getLast? = some (k, v) := by
  induction l with
  | nil => cases hmem
  | cons kv rest ih =>
    cases rest with
    | nil =>
      rcases List.mem_cons.mp hmem with h1 | h1
      · rw [← h1]
        rfl
      · cases h1
    | cons kv2 rest2 =>
      rw [List.getLast?_cons_cons]
      have hhead : ∀ y ∈ kv2 :: rest2, strLtB kv.1 y.1 = true := (List.pairwise_cons.mp hs).1
      have hrest : StoreOrd (kv2 :: rest2) := (List.pairwise_cons.mp hs).2
      have hmem2 : (k, v) ∈ kv2 :: rest2 := by
        rcases List.mem_cons.mp hmem with h1 | h1
        · exfalso
          have h3 := hhead kv2 (List.mem_cons_self _ _)
          rw [← h1] at h3
          have h4 := hmax kv2 (List.mem_cons.mpr (Or.inr (List.mem_cons_self _ _)))
          rw [h3] at h4
          cases h4
        · exact h1
      exact ih hrest hmem2 (fun x hx => hmax x (List.mem_cons.mpr (Or.inr hx)))

/-! ### UTF-8 round-trip -/

theorem utf8_roundtrip (cs : List Nat) (h : ∀ c ∈ cs, ScalarValue c) :
    utf8DecodeReplace (utf8Encode cs) = cs := by
  induction cs with
  | nil => simp [utf8Encode, utf8DecodeReplace]
  | cons c rest ih =>
    have hc : ScalarValue c := h c (List.mem_cons_self c rest)
    have hrest : utf8DecodeReplace (utf8Encode rest) = rest :=
      ih (fun x hx => h x (List.mem_cons_of_mem c hx))
    show utf8DecodeReplace (utf8EncodeChar c ++ utf8Encode rest) = c :: rest
    by_cases h1 : c < 0x80
    · rw [show utf8EncodeChar c = [c] from by simp [utf8EncodeChar, h1]]
      rw [List.cons_append, List.nil_append]
      rw [utf8DecodeReplace]
      rw [show decodeOne c (utf8Encode rest) = (c, 0) from by simp [decodeOne, h1]]
      simp [hrest]
    · by_cases h2 : c < 0x800
      · rw [show utf8EncodeChar c = [0xC0 + c / 64, 0x80 + c % 64] from by
          simp [utf8EncodeChar, h1, h2]]
        rw [List.cons_append, List.cons_append, List.nil_append]
        rw [utf8DecodeReplace]
        have hd : decodeOne (0xC0 + c / 64) ((0x80 + c % 64) :: utf8Encode rest) = (c, 1) := by
          unfold decodeOne
          rw [if_neg (by omega), if_neg (by omega), if_pos (by omega)]
          rw [if_pos (by simp [isContB, cByte]; omega)]
          simp [cByte]
          omega
        rw [hd]
        simpa using hrest
      · rcases hc with hs | hs
        case neg.inl =>
          rw [show utf8EncodeChar c = [0xE0 + c / 4096, 0x80 + (c / 64) % 64, 0x80 + c % 64]
            from by simp [utf8EncodeChar, h1, h2]; omega]
          rw [List.cons_append, List.cons_append, List.cons_append, List.nil_append]
          rw [utf8DecodeReplace]
          have hd : decodeOne (0xE0 + c / 4096)
              ((0x80 + (c / 64) % 64) :: (0x80 + c % 64) :: utf8Encode rest) = (c, 2) := by
            unfold decodeOne
            rw [if_neg (by omega), if_neg (by omega), if_neg (by omega), if_pos (by omega)]
            rw [if_pos (show cont3ok _ _ by
              unfold cont3ok cByte
              simp only [List.getD_cons_zero]
              split_ifs <;> omega)]
            rw [if_pos (show isContB _ by unfold isContB cByte; simp; omega)]
            simp [cByte]
            omega
          rw [hd]
          simpa using hrest
        case neg.inr =>
          by_cases h3 : c < 0x10000
          · rw [show utf8EncodeChar c = [0xE0 + c / 4096, 0x80 + (c / 64) % 64, 0x80 + c % 64]
              from by simp [utf8EncodeChar, h1, h2, h3]]
            rw [List.cons_append, List.cons_append, List.cons_append, List.nil_append]
            rw [utf8DecodeReplace]
            have hd : decodeOne (0xE0 + c / 4096)
                ((0x80 + (c / 64) % 64) :: (0x80 + c % 64) :: utf8Encode rest) = (c, 2) := by
              unfold decodeOne
              rw [if_neg (by omega), if_neg (by omega), if_neg (by omega), if_pos (by omega)]
              rw [if_pos (show cont3ok _ _ by
                unfold cont3ok cByte
                simp only [List.getD_cons_zero]
                split_ifs <;> omega)]
              rw [if_pos (show isContB _ by unfold isContB cByte; simp; omega)]
              simp [cByte]
              omega
            rw [hd]
            simpa using hrest
          · rw [show utf8EncodeChar c =
                [0xF0 + c / 0x40000, 0x80 + (c / 4096) % 64, 0x80 + (c / 64) % 64, 0x80 + c % 64]
              from by simp [utf8EncodeChar, h1, h2, h3]]
            rw [List.cons_append, List.cons_append, List.cons_append, List.cons_append,
              List.nil_append]
            rw [utf8DecodeReplace]
            have hd : decodeOne (0xF0 + c / 0x40000)
                ((0x80 + (c / 4096) % 64) :: (0x80 + (c / 64) % 64) :: (0x80 + c % 64) ::
                  utf8Encode rest) = (c, 3) := by
              unfold decodeOne
              rw [if_neg (by omega), if_neg (by omega), if_neg (by omega), if_neg (by omega),
                if_pos (by omega)]
              rw [if_pos (show cont4ok _ _ by
                unfold cont4ok cByte
                simp only [List.getD_cons_zero]
                split_ifs <;> omega)]
              rw [if_pos (show isContB _ by unfold isContB cByte; simp; omega)]
              rw [if_pos (show isContB _ by unfold isContB cByte; simp; omega)]
              simp [cByte]
              omega
            rw [hd]
            simpa using hrest

/-! ### The store after a sequence of puts -/

theorem applyPuts_eq {d : DB} (t : String) (rs : List PutReq) (h : d.avail = true) :
    applyPuts d t rs = ⟨insFold t rs d.store, true⟩ := by
  induction rs generalizing d with
  | nil =>
    obtain ⟨s, a⟩ := d
    simp only [applyPuts, insFold, List.foldl_nil]
    simp only at h
    rw [h]
  | cons r rest ih =>
    simp only [applyPuts, put, dbPut, h, if_true]
    exact ih (d := ⟨insertKV (reqKey t r) (reqVal r) d.store, true⟩) rfl

theorem insFold_sorted (t : String) (rs : List PutReq) {s : Store} (hs : StoreOrd s) :
    StoreOrd (insFold t rs s) := by
  induction rs generalizing s with
  | nil => exact hs
  | cons r rest ih => exact ih (insertKV_sorted hs _ _)

theorem filter_insertKV {s : Store} (P : String → Bool) (hs : StoreOrd s) {k : String}
    (hk : P k = true) (v : Val) :
    (insertKV k v s).filter (fun kv => P kv.1) = insertKV k v (s.filter (fun kv => P kv.1)) := by
  induction s with
  | nil => simp [insertKV, hk]
  | cons kv rest ih =>
    obtain ⟨k2, v2⟩ := kv
    have hhead : ∀ y ∈ rest, strLtB k2 y.1 = true := (List.pairwise_cons.mp hs).1
    have hrest : StoreOrd rest := (List.pairwise_cons.mp hs).2
    simp only [insertKV]
    by_cases hlt : strLtB k k2 = true
    · rw [if_pos hlt]
      have hfront : ∀ x ∈ ((k2, v2) :: rest).filter (fun kv => P kv.1), strLtB k x.1 = true := by
        intro x hx
        have hx2 := List.mem_of_mem_filter hx
        rcases List.mem_cons.mp hx2 with h1 | h1
        · rw [h1]
          exact hlt
        · exact strLtB_trans hlt (hhead x h1)
      rw [insertKV_front k v hfront]
      simp [List.filter, hk]
    · rw [if_neg hlt]
      by_cases he : (k == k2) = true
      · have hk2 : k = k2 := by simpa using he
        subst hk2
        rw [if_pos he]
        simp only [List.filter_cons, hk, if_true]
        simp only [insertKV]
        rw [if_neg (by rw [strLtB_irrefl]; simp), if_pos (by simp)]
      · rw [if_neg he]
        by_cases hP2 : P k2 = true
        · simp only [List.filter_cons, hP2, if_true, ih hrest]
          simp only [insertKV]
          rw [if_neg hlt, if_neg he]
        · simp only [List.filter_cons, hP2]
          simp only [Bool.false_eq_true, if_false]
          exact ih hrest

theorem insFold_filter (t : String) (rs : List PutReq) {s : Store} (hs : StoreOrd s)
    (P : String → Bool) (hP : ∀ r ∈ rs, P (reqKey t r) = true) :
    (insFold t rs s).filter (fun kv => P kv.1) = insFold t rs (s.filter (fun kv => P kv.1)) := by
  induction rs generalizing s with
  | nil => rfl
  | cons r rest ih =>
    simp only [insFold, List.foldl_cons]
    have h1 := ih (s := insertKV (reqKey t r) (reqVal r) s) (insertKV_sorted hs _ _)
      (fun r' hr' => hP r' (List.mem_cons_of_mem r hr'))
    simp only [insFold] at h1
    rw [h1, filter_insertKV P hs (hP r (List.mem_cons_self r rest))]

theorem insFold_mem (t : String) (rs : List PutReq) {s : Store}
    (hnd : rs.Pairwise (fun a b => a.cid ≠ b.cid)) (hs : StoreOrd s) (k : String) (v : Val) :
    (k, v) ∈ insFold t rs s ↔
      (∃ r ∈ rs, k = reqKey t r ∧ v = reqVal r) ∨
        ((k, v) ∈ s ∧ ∀ r ∈ rs, reqKey t r ≠ k) := by
  induction rs generalizing s with
  | nil => simp [insFold]
  | cons r rest ih =>
    have hndr : ∀ r' ∈ rest, r.cid ≠ r'.cid := (List.pairwise_cons.mp hnd).1
    have hndrest : rest.Pairwise (fun a b => a.cid ≠ b.cid) := (List.pairwise_cons.mp hnd).2
    simp only [insFold, List.foldl_cons]
    have h1 := ih (s := insertKV (reqKey t r) (reqVal r) s) hndrest (insertKV_sorted hs _ _)
    simp only [insFold] at h1
    rw [h1]
    constructor
    · rintro (⟨r', hr', hk, hv⟩ | ⟨hmem, hall⟩)
      · exact Or.inl ⟨r', List.mem_cons_of_mem r hr', hk, hv⟩
      · rcases (insertKV_mem hs _ _ _).mp hmem with heq | ⟨hmem2, hne⟩
        · refine Or.inl ⟨r, List.mem_cons_self r rest, ?_, ?_⟩
          · exact ((Prod.mk.injEq _ _ _ _).mp heq).1.symm ▸ rfl
          · exact ((Prod.mk.injEq _ _ _ _).mp heq).2.symm ▸ rfl
        · refine Or.inr ⟨hmem2, ?_⟩
          intro r' hr'
          rcases List.mem_cons.mp hr' with h2 | h2
          · rw [h2]
            exact fun hh => hne hh.symm
          · exact hall r' h2
    · rintro (⟨r', hr', hk, hv⟩ | ⟨hmem, hall⟩)
      · rcases List.mem_cons.mp hr' with h2 | h2
        · subst h2
          refine Or.inr ⟨(insertKV_mem hs _ _ _).mpr (Or.inl (by rw [hk, hv])), ?_⟩
          intro r2 hr2
          rw [hk]
          intro hcontra
          exact hndr r2 hr2 (checkpointKeyOf_inj hcontra.symm)
        · exact Or.inl ⟨r', h2, hk, hv⟩
      · refine Or.inr ⟨(insertKV_mem hs _ _ _).mpr (Or.inr ⟨hmem, ?_⟩), ?_⟩
        · exact fun hh => hall r (List.mem_cons_self r rest) hh.symm
        · exact fun r' hr' => hall r' (List.mem_cons_of_mem r hr')

/-! ### Claim C9 -/

/-- C9: at the public interface, `list(thread, limit=0)` yields every
checkpoint of the thread rather than zero checkpoints — because of the
truthiness test `if limit and count >= limit`, a limit of `0` behaves
exactly like no limit at all. -/
theorem c9_limit_zero_lists_all (d : DB) (t : String) :
    listCk d t (some 0) = listCk d t none ∧
    listCk d t (some 0) = (collectCk d t).reverse := by
  constructor <;> simp [listCk]

/-! ### Claim C5 -/

/-- C5: for every positive limit `k`, `list(thread, limit=k)` is the
forward-scan collection reversed (newest first) truncated to `k`
elements, hence has length at most `k` and is a prefix of
`list(thread, limit=None)`. -/
theorem c5_list_limit (d : DB) (t : String) (k : Nat) (hk : 1 ≤ k) :
    listCk d t (some k) = (collectCk d t).reverse.take k ∧
    (listCk d t (some k)).length ≤ k ∧
    listCk d t (some k) <+: listCk d t none := by
  have hk0 : ¬ k = 0 := by omega
  refine ⟨by simp [listCk, hk0], ?_, ?_⟩
  · simp only [listCk, hk0, if_false]
    exact List.length_take_le k _
  · simp only [listCk, hk0, if_false]
    exact ⟨(collectCk d t).reverse.drop k, List.take_append_drop k _⟩

/-- Witness for C5 at a concrete store and limit. -/
theorem c5_list_limit_witness :
    1 ≤ 1 ∧
    (listCk ⟨[], true⟩ "t" (some 1) = (collectCk ⟨[], true⟩ "t").reverse.take 1 ∧
      (listCk ⟨[], true⟩ "t" (some 1)).length ≤ 1 ∧
      listCk ⟨[], true⟩ "t" (some 1) <+: listCk ⟨[], true⟩ "t" none) :=
  ⟨by decide, c5_list_limit ⟨[], true⟩ "t" 1 (by decide)⟩

/-! ### Claim C4 -/

/-- C4 (amended): a substrate `StoreUnavailable` failure propagates
verbatim, without retry, from `put`, `put_writes` and `delete_thread`
(which have no exception handling in the source), but NOT from
`get_tuple` or `list`: those wrap the substrate calls in
`try/except Exception: pass` (directly or via `_get_data`) and swallow
the failure, returning absent respectively an empty sequence. -/
theorem c4_unavailable_behaviour (d : DB) (t cid taskId : String) (ck m w : SVal)
    (par : Option String) (cido : Option String) (lim : Option Nat)
    (h : d.avail = false) :
    put d t cid ck m par = .error .storeUnavailable ∧
    put_writes d t taskId w = .error .storeUnavailable ∧
    delete_thread d t = .error .storeUnavailable ∧
    get_tuple d t cido = none ∧
    listCk d t lim = [] := by
  refine ⟨?_, ?_, ?_, ?_, ?_⟩
  · simp [put, dbPut, h]
  · simp [put_writes, dbPut, h]
  · simp [delete_thread, dbScanPre, h]
  · unfold get_tuple
    by_cases hc : cido.getD "" = ""
    · simp [hc, latestKeyScan, dbScanPre, h]
    · simp [hc, getData, dbGet, h]
  · have hcol : collectCk d t = [] := by simp [collectCk, dbScanPre, h]
    cases lim with
    | none => simp [listCk, hcol]
    | some k => simp [listCk, hcol]

/-- Witness for C4 at a concrete unavailable substrate. -/
theorem c4_unavailable_behaviour_witness :
    put ⟨[], false⟩ "t" "c" (.str []) (.str []) none = .error .storeUnavailable ∧
    put_writes ⟨[], false⟩ "t" "a" (.str []) = .error .storeUnavailable ∧
    delete_thread ⟨[], false⟩ "t" = .error .storeUnavailable ∧
    get_tuple ⟨[], false⟩ "t" none = none ∧
    listCk ⟨[], false⟩ "t" none = [] :=
  c4_unavailable_behaviour ⟨[], false⟩ "t" "c" "a" (.str []) (.str []) (.str []) none none
    none rfl

/-- Counterexample to C4 as stated: with the substrate unavailable and a
checkpoint present, the latest-checkpoint lookup and the listing return
ordinary absent/empty results — the `StoreUnavailable` failure does not
propagate from these read operations. -/
theorem c4_counterexample :
    get_tuple ⟨[(checkpointKeyOf "t" "c", .env ⟨[97], [], none⟩)], false⟩ "t" none = none ∧
    listCk ⟨[(checkpointKeyOf "t" "c", .env ⟨[97], [], none⟩)], false⟩ "t" none = [] := by
  constructor
  · simp [get_tuple, latestKeyScan, dbScanPre]
  · simp [listCk, collectCk, dbScanPre]

/-! ### Claim C3 -/

/-- C3 (amended): `_get_data` wraps both the substrate read and the JSON
decode in a bare `except Exception: pass`, so a malformed (non-decodable)
stored value yields the same absent result (`None`) as a missing key; no
structured `CodecError` is raised — no such error type exists in the
code. -/
theorem c3_malformed_is_silent_absent (d : DB) (k : String) :
    (∀ b, dbGet d k = .ok (some (.raw b)) → getData d k = none) ∧
    (dbGet d k = .ok none → getData d k = none) := by
  constructor
  · intro b hb
    simp [getData, hb, decodeEnv]
  · intro hb
    simp [getData, hb]

/-- Witness for C3 at a concrete store holding a malformed value. -/
theorem c3_malformed_is_silent_absent_witness :
    dbGet ⟨[("k", Val.raw [1, 2, 3])], true⟩ "k" = .ok (some (.raw [1, 2, 3])) ∧
    getData ⟨[("k", Val.raw [1, 2, 3])], true⟩ "k" = none :=
  ⟨rfl, (c3_malformed_is_silent_absent ⟨[("k", Val.raw [1, 2, 3])], true⟩ "k").1 [1, 2, 3] rfl⟩

/-- Counterexample to C3 as stated: a key exists and holds a value on
which decoding fails, yet the lookup returns the very same silent absent
result as a lookup of a key that does not exist at all — not a
structured error. -/
theorem c3_counterexample :
    storeFind [("k", Val.raw [1, 2, 3])] "k" = some (.raw [1, 2, 3]) ∧
    getData ⟨[("k", Val.raw [1, 2, 3])], true⟩ "k" = none ∧
    getData ⟨[("k", Val.raw [1, 2, 3])], true⟩ "missing" = none :=
  ⟨rfl, rfl, rfl⟩

/-! ### Claim C7 -/

theorem sorted_filter_key {s : Store} (hs : StoreOrd s) {k : String} {v : Val}
    (hmem : (k, v) ∈ s) : s.filter (fun kv => kv.1 == k) = [(k, v)] := by
  induction s with
  | nil => cases hmem
  | cons kv2 rest ih =>
    obtain ⟨k2, v2⟩ := kv2
    have hhead : ∀ y ∈ rest, strLtB k2 y.1 = true := (List.pairwise_cons.mp hs).1
    have hrest : StoreOrd rest := (List.pairwise_cons.mp hs).2
    by_cases h2 : k2 = k
    · subst h2
      have hv : v2 = v := by
        rcases List.mem_cons.mp hmem with h1 | h1
        · exact ((Prod.mk.injEq _ _ _ _).mp h1).2.symm
        · exact absurd rfl (strLtB_ne (hhead _ h1))
      subst hv
      simp only [List.filter_cons]
      rw [if_pos (by simp)]
      have hnil : rest.filter (fun kv => kv.1 == k2) = [] := by
        apply List.filter_eq_nil_iff.mpr
        intro a ha
        have hlt := hhead a ha
        simp only [beq_iff_eq]
        intro hh
        rw [hh] at hlt
        exact absurd rfl (strLtB_ne hlt)
      rw [hnil]
    · simp only [List.filter_cons]
      rw [if_neg (by simp [Ne.symm h2] at *; exact fun hh => h2 hh)]
      have hmem2 : (k, v) ∈ rest := by
        rcases List.mem_cons.mp hmem with h1 | h1
        · exact absurd ((Prod.mk.injEq _ _ _ _).mp h1).1.symm h2
        · exact h1
      exact ih hrest hmem2

/-- C7: calling `put_writes` twice with the same `(thread_id, task_id)`
but different payloads leaves exactly one entry at the write key — the
substrate point-write overwrites in place — and that entry holds the
second payload, the only value retrievable for the task afterwards. -/
theorem c7_put_writes_last_wins (d : DB) (t task : String) (w1 w2 : SVal)
    (hs : StoreOrd d.store) (ha : d.avail = true) :
    ∀ d1 d2, put_writes d t task w1 = .ok d1 → put_writes d1 t task w2 = .ok d2 →
      storeFind d2.store (writeKeyOf t task) = some (.blob (blobBytes w2)) ∧
      d2.store.filter (fun kv => kv.1 == writeKeyOf t task) =
        [(writeKeyOf t task, .blob (blobBytes w2))] := by
  intro d1 d2 h1 h2
  simp only [put_writes, dbPut, ha, if_true] at h1
  have hd1 : d1 = ⟨insertKV (writeKeyOf t task) (.blob (blobBytes w1)) d.store, true⟩ := by
    cases h1
    rfl
  subst hd1
  simp only [put_writes, dbPut, if_true] at h2
  have hd2 : d2 = ⟨insertKV (writeKeyOf t task) (.blob (blobBytes w2))
      (insertKV (writeKeyOf t task) (.blob (blobBytes w1)) d.store), true⟩ := by
    cases h2
    rfl
  subst hd2
  have hsort2 : StoreOrd (insertKV (writeKeyOf t task) (.blob (blobBytes w2))
      (insertKV (writeKeyOf t task) (.blob (blobBytes w1)) d.store)) :=
    insertKV_sorted (insertKV_sorted hs _ _) _ _
  refine ⟨insertKV_find_self _ _ _, ?_⟩
  exact sorted_filter_key hsort2
    ((insertKV_mem (insertKV_sorted hs _ _) _ _ _).mpr (Or.inl rfl))

/-- Witness for C7 at a concrete store and two concrete payloads. -/
theorem c7_put_writes_last_wins_witness :
    storeFind [(writeKeyOf "t" "a", Val.blob [2])] (writeKeyOf "t" "a") =
      some (.blob (blobBytes (.bytes [2]))) ∧
    List.filter (fun kv => kv.1 == writeKeyOf "t" "a") [(writeKeyOf "t" "a", Val.blob [2])] =
      [(writeKeyOf "t" "a", .blob (blobBytes (.bytes [2])))] :=
  c7_put_writes_last_wins ⟨[], true⟩ "t" "a" (.bytes [1]) (.bytes [2]) (by decide) rfl
    ⟨[(writeKeyOf "t" "a", .blob [1])], true⟩ ⟨[(writeKeyOf "t" "a", .blob [2])], true⟩ rfl rfl

/-! ### Claim C2 -/

/-- C2 (amended): `get` after `put` returns the stored envelope exactly,
and the payload round-trips when the serializer's byte output is valid
UTF-8 (in particular for anything UTF-8-encoded from text) — but
byte-valued inputs are NOT passed through opaquely: `_ensure_jsonable`
decodes them as UTF-8 with replacement, so the round trip is exact
precisely up to that decoding (string-valued inputs pass unchanged). -/
theorem c2_roundtrip_valid_utf8 (d : DB) (t cid : String) (cs ms : List Nat)
    (par : Option String) (ha : d.avail = true) (hc : ¬ cid = "")
    (hval : ∀ c ∈ cs, ScalarValue c) :
    put d t cid (.bytes (utf8Encode cs)) (.str ms) par =
      .ok (⟨insertKV (checkpointKeyOf t cid) (.env ⟨cs, ms, par⟩) d.store, true⟩, t, cid) ∧
    get_tuple ⟨insertKV (checkpointKeyOf t cid) (.env ⟨cs, ms, par⟩) d.store, true⟩ t
      (some cid) = some ⟨cs, ms, par⟩ := by
  have henv : envOf (.bytes (utf8Encode cs)) (.str ms) par = ⟨cs, ms, par⟩ := by
    unfold envOf
    simp only [ensure_jsonable]
    rw [utf8_roundtrip cs hval]
  constructor
  · simp only [put, dbPut, ha, if_true, henv]
  · unfold get_tuple
    rw [if_neg (by simp [hc])]
    simp only [Option.getD_some]
    unfold getData dbGet
    simp only [if_true]
    rw [insertKV_find_self]
    rfl

/-- Witness for C2 at a concrete thread, id and payloads. -/
theorem c2_roundtrip_valid_utf8_witness :
    put ⟨[], true⟩ "t" "c" (.bytes (utf8Encode [104, 105])) (.str []) none =
      .ok (⟨insertKV (checkpointKeyOf "t" "c") (.env ⟨[104, 105], [], none⟩) [], true⟩,
        "t", "c") ∧
    get_tuple ⟨insertKV (checkpointKeyOf "t" "c") (.env ⟨[104, 105], [], none⟩) [], true⟩ "t"
      (some "c") = some ⟨[104, 105], [], none⟩ :=
  c2_roundtrip_valid_utf8 ⟨[], true⟩ "t" "c" [104, 105] [] none rfl (by decide) (by decide)

/-- Counterexample to C2 as stated: the byte payload `[0xFF]` is not
passed through opaquely — `_ensure_jsonable` turns it into the
replacement character U+FFFD, whose UTF-8 encoding is not `[0xFF]`, so
the original byte string cannot be recovered from what `get` returns. -/
theorem c2_counterexample :
    ensure_jsonable (.bytes [0xFF]) = [0xFFFD] ∧
    utf8Encode [0xFFFD] ≠ [0xFF] ∧
    put ⟨[], true⟩ "t" "c" (.bytes [0xFF]) (.str []) none =
      .ok (⟨[(checkpointKeyOf "t" "c", .env ⟨[0xFFFD], [], none⟩)], true⟩, "t", "c") ∧
    get_tuple ⟨[(checkpointKeyOf "t" "c", .env ⟨[0xFFFD], [], none⟩)], true⟩ "t" (some "c") =
      some ⟨[0xFFFD], [], none⟩ := by
  have h1 : utf8DecodeReplace [0xFF] = [0xFFFD] := by
    simp [utf8DecodeReplace, decodeOne]
  refine ⟨h1, by decide, ?_, by decide⟩
  simp only [put, dbPut, if_true, envOf, ensure_jsonable, h1]
  rfl

/-! ### Claim C6 -/

theorem checkpointKeyOf_data (t c : String) :
    (checkpointKeyOf t c).data = "checkpoints/".data ++ (t.data ++ '/' :: c.data) := by
  unfold checkpointKeyOf
  rw [String.data_append, String.data_append, String.data_append]
  rw [show "/".data = ['/'] from rfl]
  rw [List.append_assoc, List.append_assoc, List.singleton_append]

theorem checkpointPre_data (t : String) :
    (checkpointPre t).data = "checkpoints/".data ++ (t.data ++ ['/']) := by
  unfold checkpointPre
  rw [String.data_append, String.data_append]
  rw [show "/".data = ['/'] from rfl]
  rw [List.append_assoc]

theorem sepSplit (a : List Char) : ∀ (b r1 r2 : List Char), '/' ∉ a → '/' ∉ b →
    a ++ '/' :: r1 = b ++ '/' :: r2 → a = b ∧ r1 = r2 := by
  induction a with
  | nil =>
    intro b r1 r2 _ hb h
    cases b with
    | nil => simpa using h
    | cons y ys =>
      rw [List.nil_append, List.cons_append] at h
      have hy : y = '/' := (((List.cons.injEq _ _ _ _).mp h).1).symm
      exact absurd (by rw [hy]; exact List.mem_cons_self _ _) hb
  | cons x xs ih =>
    intro b r1 r2 ha hb h
    cases b with
    | nil =>
      rw [List.cons_append, List.nil_append] at h
      have hx : x = '/' := ((List.cons.injEq _ _ _ _).mp h).1
      exact absurd (by rw [← hx]; exact List.mem_cons_self _ _) ha
    | cons y ys =>
      rw [List.cons_append, List.cons_append] at h
      obtain ⟨hxy, htl⟩ := (List.cons.injEq _ _ _ _).mp h
      have ha2 : '/' ∉ xs := fun hm => ha (List.mem_cons_of_mem _ hm)
      have hb2 : '/' ∉ ys := fun hm => hb (List.mem_cons_of_mem _ hm)
      obtain ⟨hA, hB⟩ := ih ys r1 r2 ha2 hb2 htl
      exact ⟨by rw [hxy, hA], hB⟩

/-- C6 (amended): the key scheme performs no rejection and no escaping of
the separator, so its guarantees hold only for separator-free thread ids:
for thread ids not containing the path separator, checkpoint keys collide
exactly when both the thread id and the checkpoint id agree, and the
checkpoint prefix of one thread never matches a key of a different
thread.  (A thread id containing the separator breaks this — see the
counterexample.) -/
theorem c6_keys_separator_free (t1 c1 t2 c2 : String)
    (h1 : '/' ∉ t1.data) (h2 : '/' ∉ t2.data) :
    (checkpointKeyOf t1 c1 = checkpointKeyOf t2 c2 ↔ t1 = t2 ∧ c1 = c2) ∧
    (t1 ≠ t2 → hasPre (checkpointPre t1) (checkpointKeyOf t2 c2) = false) := by
  constructor
  · constructor
    · intro h
      have hd : (checkpointKeyOf t1 c1).data = (checkpointKeyOf t2 c2).data := by rw [h]
      rw [checkpointKeyOf_data, checkpointKeyOf_data] at hd
      have hd2 := List.append_cancel_left hd
      obtain ⟨hA, hB⟩ := sepSplit t1.data t2.data c1.data c2.data h1 h2 hd2
      exact ⟨strExt hA, strExt hB⟩
    · rintro ⟨rfl, rfl⟩
      rfl
  · intro hne
    by_contra hcon
    have htrue : hasPre (checkpointPre t1) (checkpointKeyOf t2 c2) = true := by
      revert hcon
      cases hasPre (checkpointPre t1) (checkpointKeyOf t2 c2) <;> simp
    rw [hasPre_iff] at htrue
    obtain ⟨s, hss⟩ := htrue
    have hd : (checkpointKeyOf t2 c2).data = (checkpointPre t1 ++ s).data := by rw [hss]
    rw [checkpointKeyOf_data, String.data_append, checkpointPre_data] at hd
    rw [List.append_assoc, List.append_assoc, List.singleton_append] at hd
    have hd2 := List.append_cancel_left hd
    obtain ⟨hA, _⟩ := sepSplit t2.data t1.data c2.data s.data h2 h1 hd2
    exact hne (strExt hA).symm

/-- Witness for C6 at two concrete separator-free thread ids. -/
theorem c6_keys_separator_free_witness :
    ((checkpointKeyOf "x" "1" = checkpointKeyOf "y" "2" ↔ ("x" : String) = "y" ∧
        ("1" : String) = "2") ∧
      (("x" : String) ≠ "y" →
        hasPre (checkpointPre "x") (checkpointKeyOf "y" "2") = false)) :=
  c6_keys_separator_free "x" "1" "y" "2" (by decide) (by decide)

/-- Counterexample to C6 as stated: nothing rejects or escapes a thread
id containing the separator, and the scheme then breaks both ways — the
key of thread "a" with checkpoint id "b/c" is literally the same key as
that of thread "a/b" with checkpoint id "c", and the checkpoint prefix of
thread "a/b" matches that key of the different thread "a". -/
theorem c6_counterexample :
    checkpointKeyOf "a" "b/c" = checkpointKeyOf "a/b" "c" ∧
    ("a" : String) ≠ "a/b" ∧
    hasPre (checkpointPre "a/b") (checkpointKeyOf "a" "b/c") = true :=
  ⟨by decide, by decide, by decide⟩

/-! ### Deletion lemmas (claims C8, C10) -/

theorem strContains_iff (l : List String) (a : String) : l.contains a = true ↔ a ∈ l := by
  simp [List.contains_iff_exists_mem_beq]

theorem contains_cons_str (a k : String) (ks : List String) :
    (k :: ks).contains a = ((a == k) || ks.contains a) := by
  cases hx : a == k <;> simp [List.contains, List.elem, hx]

theorem storeFind_filter_of (s : Store) (P : String × Val → Bool) (k : String)
    (h : ∀ v : Val, P (k, v) = true) : storeFind (s.filter P) k = storeFind s k := by
  induction s with
  | nil => rfl
  | cons kv rest ih =>
    obtain ⟨k2, v2⟩ := kv
    by_cases h2 : k2 = k
    · subst h2
      rw [List.filter_cons, if_pos (h v2), storeFind_cons_self, storeFind_cons_self]
    · rw [List.filter_cons]
      cases hP : P (k2, v2)
      · simp only [Bool.false_eq_true, if_false]
        rw [ih, storeFind_cons_ne _ _ h2]
      · simp only [if_true]
        rw [storeFind_cons_ne _ _ h2, storeFind_cons_ne _ _ h2]
        exact ih

theorem deleteKeys_ok {d : DB} (ks : List String) (h : d.avail = true) :
    deleteKeys d ks = .ok ⟨d.store.filter (fun kv => !ks.contains kv.1), true⟩ := by
  induction ks generalizing d with
  | nil =>
    obtain ⟨s, a⟩ := d
    simp only at h
    subst h
    simp only [deleteKeys]
    have hP : (fun kv : String × Val => !([] : List String).contains kv.1) = fun _ => true := by
      funext kv
      rfl
    rw [hP, List.filter_true]
  | cons k ks2 ih =>
    simp only [deleteKeys, dbDelete, h, if_true]
    rw [ih (d := ⟨d.store.filter (fun kv => !(kv.1 == k)), true⟩) rfl]
    have hcomb : (d.store.filter (fun kv => !(kv.1 == k))).filter
        (fun kv => !ks2.contains kv.1) =
        d.store.filter (fun kv => !(k :: ks2).contains kv.1) := by
      rw [List.filter_filter]
      apply List.filter_congr
      intro kv _
      rw [contains_cons_str]
      cases hx : kv.1 == k <;> cases hc : ks2.contains kv.1 <;> simp [hx, hc]
    rw [hcomb]

theorem delete_thread_spec {d : DB} (t : String) (h : d.avail = true) :
    ∃ d', delete_thread d t = .ok d' ∧ d'.avail = true ∧
      (∀ kv ∈ d'.store, kv ∈ d.store) ∧
      (∀ kv ∈ d'.store, hasPre (checkpointPre t) kv.1 = false) ∧
      (∀ kv ∈ d'.store, hasPre (writePre t) kv.1 = false) ∧
      (∀ k, hasPre (checkpointPre t) k = false → hasPre (writePre t) k = false →
        storeFind d'.store k = storeFind d.store k) := by
  have hscan1 : dbScanPre d (checkpointPre t) =
      .ok (d.store.filter (fun kv => hasPre (checkpointPre t) kv.1)) := by
    simp [dbScanPre, h]
  have hdel1 := deleteKeys_ok (d := d)
    ((d.store.filter (fun kv => hasPre (checkpointPre t) kv.1)).map (fun kv => kv.1)) h
  have hscan2 : dbScanPre ⟨d.store.filter (fun kv =>
        !((d.store.filter (fun kv2 => hasPre (checkpointPre t) kv2.1)).map
          (fun kv2 => kv2.1)).contains kv.1), true⟩ (writePre t) =
      .ok ((d.store.filter (fun kv =>
        !((d.store.filter (fun kv2 => hasPre (checkpointPre t) kv2.1)).map
          (fun kv2 => kv2.1)).contains kv.1)).filter
            (fun kv => hasPre (writePre t) kv.1)) := by
    simp [dbScanPre]
  have hdel2 := deleteKeys_ok (d := ⟨d.store.filter (fun kv =>
        !((d.store.filter (fun kv2 => hasPre (checkpointPre t) kv2.1)).map
          (fun kv2 => kv2.1)).contains kv.1), true⟩)
    (((d.store.filter (fun kv =>
        !((d.store.filter (fun kv2 => hasPre (checkpointPre t) kv2.1)).map
          (fun kv2 => kv2.1)).contains kv.1)).filter
            (fun kv => hasPre (writePre t) kv.1)).map (fun kv => kv.1)) rfl
  refine ⟨⟨(d.store.filter (fun kv =>
      !((d.store.filter (fun kv2 => hasPre (checkpointPre t) kv2.1)).map
        (fun kv2 => kv2.1)).contains kv.1)).filter (fun kv =>
      !(((d.store.filter (fun kv2 =>
        !((d.store.filter (fun kv3 => hasPre (checkpointPre t) kv3.1)).map
          (fun kv3 => kv3.1)).contains kv2.1)).filter
            (fun kv2 => hasPre (writePre t) kv2.1)).map
              (fun kv2 => kv2.1)).contains kv.1), true⟩, ?_, rfl, ?_, ?_, ?_, ?_⟩
  · simp only [delete_thread, hscan1, hdel1, hscan2, hdel2]
  · intro kv hkv
    exact List.mem_of_mem_filter (List.mem_of_mem_filter hkv)
  · intro kv hkv
    have hkv1 := List.mem_of_mem_filter hkv
    have hmem : kv ∈ d.store := List.mem_of_mem_filter hkv1
    have hpred : (!((d.store.filter (fun kv2 => hasPre (checkpointPre t) kv2.1)).map
        (fun kv2 => kv2.1)).contains kv.1) = true := (List.mem_filter.mp hkv1).2
    cases hpre : hasPre (checkpointPre t) kv.1
    · rfl
    · exfalso
      have hin : kv ∈ d.store.filter (fun kv2 => hasPre (checkpointPre t) kv2.1) :=
        List.mem_filter.mpr ⟨hmem, hpre⟩
      have hcont := (strContains_iff _ kv.1).mpr (List.mem_map.mpr ⟨kv, hin, rfl⟩)
      rw [hcont] at hpred
      cases hpred
  · intro kv hkv
    have hkv1 := List.mem_of_mem_filter hkv
    have hpred : (!(((d.store.filter (fun kv2 =>
        !((d.store.filter (fun kv3 => hasPre (checkpointPre t) kv3.1)).map
          (fun kv3 => kv3.1)).contains kv2.1)).filter
            (fun kv2 => hasPre (writePre t) kv2.1)).map (fun kv2 => kv2.1)).contains kv.1) =
        true := (List.mem_filter.mp hkv).2
    cases hpre : hasPre (writePre t) kv.1
    · rfl
    · exfalso
      have hin : kv ∈ (d.store.filter (fun kv2 =>
          !((d.store.filter (fun kv3 => hasPre (checkpointPre t) kv3.1)).map
            (fun kv3 => kv3.1)).contains kv2.1)).filter
              (fun kv2 => hasPre (writePre t) kv2.1) :=
        List.mem_filter.mpr ⟨hkv1, hpre⟩
      have hcont := (strContains_iff _ kv.1).mpr (List.mem_map.mpr ⟨kv, hin, rfl⟩)
      rw [hcont] at hpred
      cases hpred
  · intro k hk1 hk2
    have hnotin1 : ∀ v : Val, (!((d.store.filter (fun kv2 =>
        hasPre (checkpointPre t) kv2.1)).map (fun kv2 => kv2.1)).contains (k, v).1) = true := by
      intro v
      cases hc : ((d.store.filter (fun kv2 => hasPre (checkpointPre t) kv2.1)).map
          (fun kv2 => kv2.1)).contains k
      · rfl
      · exfalso
        obtain ⟨kv, hkv, hfst⟩ := List.mem_map.mp ((strContains_iff _ k).mp hc)
        have hfil := (List.mem_filter.mp hkv).2
        rw [hfst, hk1] at hfil
        cases hfil
    have hnotin2 : ∀ v : Val, (!(((d.store.filter (fun kv2 =>
        !((d.store.filter (fun kv3 => hasPre (checkpointPre t) kv3.1)).map
          (fun kv3 => kv3.1)).contains kv2.1)).filter
            (fun kv2 => hasPre (writePre t) kv2.1)).map (fun kv2 => kv2.1)).contains
              (k, v).1) = true := by
      intro v
      cases hc : (((d.store.filter (fun kv2 =>
          !((d.store.filter (fun kv3 => hasPre (checkpointPre t) kv3.1)).map
            (fun kv3 => kv3.1)).contains kv2.1)).filter
              (fun kv2 => hasPre (writePre t) kv2.1)).map (fun kv2 => kv2.1)).contains k
      · rfl
      · exfalso
        obtain ⟨kv, hkv, hfst⟩ := List.mem_map.mp ((strContains_iff _ k).mp hc)
        have hfil := (List.mem_filter.mp hkv).2
        rw [hfst, hk2] at hfil
        cases hfil
    calc storeFind ((d.store.filter (fun kv =>
            !((d.store.filter (fun kv2 => hasPre (checkpointPre t) kv2.1)).map
              (fun kv2 => kv2.1)).contains kv.1)).filter (fun kv =>
            !(((d.store.filter (fun kv2 =>
              !((d.store.filter (fun kv3 => hasPre (checkpointPre t) kv3.1)).map
                (fun kv3 => kv3.1)).contains kv2.1)).filter
                  (fun kv2 => hasPre (writePre t) kv2.1)).map
                    (fun kv2 => kv2.1)).contains kv.1)) k
        = storeFind (d.store.filter (fun kv =>
            !((d.store.filter (fun kv2 => hasPre (checkpointPre t) kv2.1)).map
              (fun kv2 => kv2.1)).contains kv.1)) k :=
          storeFind_filter_of _ _ k hnotin2
      _ = storeFind d.store k := storeFind_filter_of _ _ k hnotin1

/-! ### Claim C8 -/

/-- C8: after `delete_thread` completes successfully, a latest-checkpoint
lookup on the thread returns absent, and scans of both the thread's write
prefix and its checkpoint prefix return the empty sequence: no checkpoint
key and no write key of the thread survives. -/
theorem c8_delete_thread_clears (d : DB) (t : String) (h : d.avail = true) :
    ∀ d', delete_thread d t = .ok d' →
      get_tuple d' t none = none ∧
      dbScanPre d' (checkpointPre t) = .ok [] ∧
      dbScanPre d' (writePre t) = .ok [] := by
  obtain ⟨d2, hdel, havail, _, hck, hwr, _⟩ := delete_thread_spec t h
  intro d' hd'
  rw [hdel] at hd'
  cases hd'
  have hcknil : d2.store.filter (fun kv => hasPre (checkpointPre t) kv.1) = [] :=
    List.filter_eq_nil_iff.mpr (fun a ha => by rw [hck a ha]; simp)
  have hwrnil : d2.store.filter (fun kv => hasPre (writePre t) kv.1) = [] :=
    List.filter_eq_nil_iff.mpr (fun a ha => by rw [hwr a ha]; simp)
  refine ⟨?_, ?_, ?_⟩
  · unfold get_tuple
    rw [if_pos (show (none : Option String).getD "" = "" from rfl)]
    unfold latestKeyScan dbScanPre
    rw [havail, if_pos rfl, hcknil]
    rfl
  · unfold dbScanPre
    rw [havail, if_pos rfl, hcknil]
  · unfold dbScanPre
    rw [havail, if_pos rfl, hwrnil]

/-- Witness for C8 at a concrete store holding one checkpoint and one
write record for the thread. -/
theorem c8_delete_thread_clears_witness :
    get_tuple ⟨[], true⟩ "t" none = none ∧
    dbScanPre ⟨[], true⟩ (checkpointPre "t") = .ok [] ∧
    dbScanPre ⟨[], true⟩ (writePre "t") = .ok [] :=
  c8_delete_thread_clears
    ⟨[(checkpointKeyOf "t" "c", .env ⟨[], [], none⟩), (writeKeyOf "t" "a", .blob [1])], true⟩
    "t" rfl ⟨[], true⟩ rfl

/-! ### Claim C10 -/

/-- C10: `delete_thread` deletes only keys under the thread's checkpoint
prefix and write prefix — the stored value of every other key is the same
after the deletion as before. -/
theorem c10_delete_thread_frame (d : DB) (t k : String) (h : d.avail = true)
    (hck : hasPre (checkpointPre t) k = false) (hwr : hasPre (writePre t) k = false) :
    ∀ d', delete_thread d t = .ok d' → storeFind d'.store k = storeFind d.store k := by
  obtain ⟨d2, hdel, _, _, _, _, hfind⟩ := delete_thread_spec t h
  intro d' hd'
  rw [hdel] at hd'
  cases hd'
  exact hfind k hck hwr

/-- Witness for C10 at a concrete store with an unrelated key. -/
theorem c10_delete_thread_frame_witness :
    storeFind [("other", Val.raw [7])] "other" =
      storeFind [("other", Val.raw [7]), (checkpointKeyOf "t" "c", .env ⟨[], [], none⟩)]
        "other" :=
  c10_delete_thread_frame
    ⟨[("other", Val.raw [7]), (checkpointKeyOf "t" "c", .env ⟨[], [], none⟩)], true⟩ "t"
    "other" rfl (by decide) (by decide) ⟨[("other", Val.raw [7])], true⟩ rfl

/-! ### Claim C1 -/

/-- C1: starting from a store whose checkpoint prefix for the thread is
empty, after any sequence of `put` calls with pairwise-distinct
checkpoint ids, the latest-checkpoint lookup (`get_tuple` with no
checkpoint id in the config) returns the envelope stored under the
lexicographically greatest checkpoint id — the last key visited by the
forward lexicographic prefix scan — independent of the order in which the
puts were issued; and with no puts it returns absent. -/
theorem c1_latest_checkpoint (d : DB) (t : String) (reqs : List PutReq)
    (hs : StoreOrd d.store) (ha : d.avail = true)
    (hempty : d.store.filter (fun kv => hasPre (checkpointPre t) kv.1) = [])
    (hnd : reqs.Pairwise (fun a b => a.cid ≠ b.cid)) :
    (reqs = [] → get_tuple (applyPuts d t reqs) t none = none) ∧
    (∀ r ∈ reqs, (∀ r2 ∈ reqs, strLtB r.cid r2.cid = false) →
      get_tuple (applyPuts d t reqs) t none =
        some (envOf r.ckpt r.meta r.parent)) := by
  rw [applyPuts_eq t reqs ha]
  have hscan : dbScanPre ⟨insFold t reqs d.store, true⟩ (checkpointPre t) =
      .ok ((insFold t reqs d.store).filter (fun kv => hasPre (checkpointPre t) kv.1)) := by
    simp [dbScanPre]
  have hfilter : (insFold t reqs d.store).filter
      (fun kv => hasPre (checkpointPre t) kv.1) = insFold t reqs [] := by
    rw [insFold_filter t reqs hs _ (fun r _ => hasPre_checkpointKey t r.cid), hempty]
  constructor
  · rintro rfl
    unfold get_tuple
    rw [if_pos (show (none : Option String).getD "" = "" from rfl)]
    unfold latestKeyScan
    rw [hscan, hfilter]
    rfl
  · intro r hr hmax
    have hordnil : StoreOrd ([] : Store) := List.Pairwise.nil
    have hsorted : StoreOrd (insFold t reqs d.store) := insFold_sorted t reqs hs
    have hfl_sorted : StoreOrd (insFold t reqs []) := insFold_sorted t reqs hordnil
    have hmem : (reqKey t r, reqVal r) ∈ insFold t reqs [] :=
      (insFold_mem t reqs hnd hordnil _ _).mpr (Or.inl ⟨r, hr, rfl, rfl⟩)
    have hub : ∀ x ∈ insFold t reqs [], strLtB (reqKey t r) x.1 = false := by
      intro x hx
      obtain ⟨k, v⟩ := x
      rcases (insFold_mem t reqs hnd hordnil k v).mp hx with ⟨r2, hr2, hk, _⟩ | ⟨hmem2, _⟩
      · rw [hk]
        unfold reqKey
        rw [strLtB_checkpointKey]
        exact hmax r2 hr2
      · cases hmem2
    have hlast : (insFold t reqs []).getLast? = some (reqKey t r, reqVal r) :=
      sorted_getLast_max hfl_sorted hmem hub
    have hmemFull : (reqKey t r, reqVal r) ∈ insFold t reqs d.store := by
      have hm2 : (reqKey t r, reqVal r) ∈ (insFold t reqs d.store).filter
          (fun kv => hasPre (checkpointPre t) kv.1) := by
        rw [hfilter]
        exact hmem
      exact List.mem_of_mem_filter hm2
    have hfind : storeFind (insFold t reqs d.store) (reqKey t r) = some (reqVal r) :=
      sorted_find_mem hsorted hmemFull
    unfold get_tuple
    rw [if_pos (show (none : Option String).getD "" = "" from rfl)]
    unfold latestKeyScan
    rw [hscan, hfilter]
    simp only [List.getLast?_map, hlast, Option.map_some]
    simp [getData, dbGet, hfind, decodeEnv, reqVal]

/-- Witness for C1 at a concrete thread with two puts issued out of
lexicographic order; the lookup returns the payload of the
lexicographically greatest checkpoint id. -/
theorem c1_latest_checkpoint_witness :
    get_tuple (applyPuts ⟨[], true⟩ "t"
        [⟨"b", .str [104], .str [], none⟩, ⟨"a", .str [], .str [], none⟩]) "t" none =
      some (envOf (.str [104]) (.str []) none) :=
  (c1_latest_checkpoint ⟨[], true⟩ "t"
      [⟨"b", .str [104], .str [], none⟩, ⟨"a", .str [], .str [], none⟩]
      List.Pairwise.nil rfl rfl (by decide)).2
    ⟨"b", .str [104], .str [], none⟩ (by decide) (by decide)

end SochCk
